import Mathlib

set_option maxRecDepth 100000
set_option maxHeartbeats 1000000

/-!
Verification of the hiatus detector (src/detector.py).

The Python source is shallowly embedded here.  Text is a `List Char`
(Python strings index by codepoint, as does `List Char`).  The pieces of
`unicodedata` that the source consults (combining class, general category,
`str.isspace`, `str.lower`, canonical/compatibility decomposition, raw
decomposition mapping, NFC/NFD/NFKD normalization) are modelled by a
concrete character table (`charTable`) derived from UnicodeData.txt for the
polytonic-Greek repertoire this development exercises; characters outside
the table get the Unicode defaults (combining class 0, unassigned
category, not a space, lower = itself, no decomposition).  NFD is modelled
as full canonical decomposition; canonical reordering of combining marks
is omitted because no predicate of the source distinguishes mark order
(they test membership of a mark in the NFD string, or take the first
non-combining character).  NFC is modelled as full canonical decomposition
followed by canonical pair composition.
-/

/-- Major Unicode general-category classes, enough to decide the
`category(ch).startswith(...)` tests of the source ("L", "N", "P", "S"). -/
inductive UCat where
  | L | M | N | P | S | Z | C
deriving DecidableEq, Inhabited

/-- Per-character Unicode data used by the source:
`cc` = canonical combining class, `cat` = general-category major class,
`space` = `str.isspace`, `lower` = `str.lower`,
`decomp` = full canonical decomposition (NFD),
`kdecomp` = full compatibility decomposition (NFKD),
`raw0345` = whether `unicodedata.decomposition(ch)` mentions "0345". -/
structure CharData where
  cc : Nat
  cat : UCat
  space : Bool
  lower : Char
  decomp : List Char
  kdecomp : List Char
  raw0345 : Bool
deriving DecidableEq, Inhabited

/-- Character table for the repertoire exercised in this development,
transcribed from UnicodeData.txt. -/
def charTable : List (Char × CharData) :=
  [ ('α', ⟨0, .L, false, 'α', ['α'], ['α'], false⟩),
    ('ε', ⟨0, .L, false, 'ε', ['ε'], ['ε'], false⟩),
    ('η', ⟨0, .L, false, 'η', ['η'], ['η'], false⟩),
    ('ι', ⟨0, .L, false, 'ι', ['ι'], ['ι'], false⟩),
    ('ο', ⟨0, .L, false, 'ο', ['ο'], ['ο'], false⟩),
    ('υ', ⟨0, .L, false, 'υ', ['υ'], ['υ'], false⟩),
    ('ω', ⟨0, .L, false, 'ω', ['ω'], ['ω'], false⟩),
    ('θ', ⟨0, .L, false, 'θ', ['θ'], ['θ'], false⟩),
    ('ῦ', ⟨0, .L, false, 'ῦ', ['υ', '͂'], ['υ', '͂'], false⟩),
    ('ἀ', ⟨0, .L, false, 'ἀ', ['α', '̓'], ['α', '̓'], false⟩),
    ('ἁ', ⟨0, .L, false, 'ἁ', ['α', '̔'], ['α', '̔'], false⟩),
    ('ϊ', ⟨0, .L, false, 'ϊ', ['ι', '̈'], ['ι', '̈'], false⟩),
    ('ῃ', ⟨0, .L, false, 'ῃ', ['η', 'ͅ'], ['η', 'ͅ'], true⟩),
    ('ῳ', ⟨0, .L, false, 'ῳ', ['ω', 'ͅ'], ['ω', 'ͅ'], true⟩),
    ('͂', ⟨230, .M, false, '͂', ['͂'], ['͂'], false⟩),
    ('̓', ⟨230, .M, false, '̓', ['̓'], ['̓'], false⟩),
    ('̔', ⟨230, .M, false, '̔', ['̔'], ['̔'], false⟩),
    ('̈', ⟨230, .M, false, '̈', ['̈'], ['̈'], false⟩),
    ('́', ⟨230, .M, false, '́', ['́'], ['́'], false⟩),
    ('ͅ', ⟨240, .M, false, 'ͅ', ['ͅ'], ['ͅ'], false⟩),
    ('\n', ⟨0, .C, true, '\n', ['\n'], ['\n'], false⟩),
    (' ', ⟨0, .Z, true, ' ', [' '], [' '], false⟩),
    (',', ⟨0, .P, false, ',', [','], [','], false⟩) ]

def lookupData (c : Char) : Option CharData :=
  (charTable.find? (fun e => e.1 == c)).map (fun e => e.2)

/-- `unicodedata.combining(ch)`. -/
def combiningClass (c : Char) : Nat :=
  match lookupData c with
  | some d => d.cc
  | none => 0

/-- Major class of `unicodedata.category(ch)`. -/
def ucat (c : Char) : UCat :=
  match lookupData c with
  | some d => d.cat
  | none => .C

/-- `str.isspace` on a single character. -/
def isSpaceCh (c : Char) : Bool :=
  match lookupData c with
  | some d => d.space
  | none => false

/-- `str.lower` on a single character. -/
def lowerCh (c : Char) : Char :=
  match lookupData c with
  | some d => d.lower
  | none => c

/-- Full canonical decomposition of one character (the per-character part
of `unicodedata.normalize("NFD", -)`). -/
def decompFull (c : Char) : List Char :=
  match lookupData c with
  | some d => d.decomp
  | none => [c]

/-- Full compatibility decomposition of one character (the per-character
part of `unicodedata.normalize("NFKD", -)`). -/
def kdecompFull (c : Char) : List Char :=
  match lookupData c with
  | some d => d.kdecomp
  | none => [c]

/-- Whether `unicodedata.decomposition(ch)` (the raw one-level mapping,
as a string of hex fields) contains "0345". -/
def rawDecompHas0345 (c : Char) : Bool :=
  match lookupData c with
  | some d => d.raw0345
  | none => false

/-- `unicodedata.normalize("NFD", s)` (canonical reordering omitted; see
the file comment). -/
def nfd (s : List Char) : List Char := s.flatMap decompFull

/-- `unicodedata.normalize("NFKD", s)` (canonical reordering omitted). -/
def nfkd (s : List Char) : List Char := s.flatMap kdecompFull

/-- Primary canonical composite pairs (starter, combining mark) for the
repertoire of `charTable`, from UnicodeData.txt. -/
def composePairs : List ((Char × Char) × Char) :=
  [ (('υ', '͂'), 'ῦ'),
    (('α', '̓'), 'ἀ'),
    (('α', '̔'), 'ἁ'),
    (('ι', '̈'), 'ϊ'),
    (('η', 'ͅ'), 'ῃ'),
    (('ω', 'ͅ'), 'ῳ') ]

def composePair (a b : Char) : Option Char :=
  (composePairs.find? (fun e => e.1.1 == a && e.1.2 == b)).map (fun e => e.2)

/-- Canonical composition pass of NFC: walk the decomposed sequence, keep a
current starter and greedily compose following marks into it; once a mark
fails to compose it (and everything after it up to the next starter) is
kept as-is.  (Exact for text whose marks are in canonical order, which is
the repertoire treated here.) -/
def nfcGo (s : Char) (pend : List Char) (blocked : Bool) : List Char → List Char
  | [] => s :: pend.reverse
  | c :: rest =>
    if combiningClass c == 0 then (s :: pend.reverse) ++ nfcGo c [] false rest
    else if blocked then nfcGo s (c :: pend) true rest
    else
      match composePair s c with
      | some s2 => nfcGo s2 pend blocked rest
      | none => nfcGo s (c :: pend) true rest

def nfcCompose : List Char → List Char
  | [] => []
  | c :: rest => nfcGo c [] false rest

/-- `unicodedata.normalize("NFC", s)`: canonical decomposition followed by
canonical composition. -/
def nfc (s : List Char) : List Char := nfcCompose (nfd s)

-- ----- configuration tables of the source (module level constants) -----

/-- `DIPHTHONGS` of the source. -/
def DIPHTHONGS : List (List Char) :=
  ["αι".data, "αυ".data, "ει".data, "ευ".data, "οι".data,
   "ου".data, "υι".data, "ωι".data, "ῃ".data, "ῳ".data]

/-- `PRECOMPOSED_DIAERESIS` of the source. -/
def PRECOMPOSED_DIAERESIS : List Char := ['ϊ', 'ΐ', 'ϋ', 'ΰ', 'Ϊ', 'Ϋ']

/-- `PRECOMPOSED_IOTA_SUBS` of the source. -/
def PRECOMPOSED_IOTA_SUBS : List Char :=
  ['ᾳ', 'ᾴ', 'ᾲ', 'ᾷ', 'ᾀ', 'ᾁ', 'ᾂ', 'ᾃ', 'ᾄ', 'ᾅ', 'ᾆ', 'ᾇ',
   'ῃ', 'ῄ', 'ῂ', 'ῇ', 'ᾐ', 'ᾑ', 'ᾒ', 'ᾓ', 'ᾔ', 'ᾕ', 'ᾖ', 'ᾗ',
   'ῳ', 'ῴ', 'ῲ', 'ῷ', 'ᾠ', 'ᾡ', 'ᾢ', 'ᾣ', 'ᾤ', 'ᾥ', 'ᾦ', 'ᾧ']

/-- `BASE_VOWELS` of the source. -/
def BASE_VOWELS : List Char := "αεηιουω".data

-- ----- cluster classifier (source lines 38-91) -----

/-- `base_letter`: first non-combining codepoint of the NFD decomposition,
lowercased; the empty string if there is none.  (Returns a `List Char` of
length at most one, standing for the Python string.) -/
def base_letter (cluster_text : List Char) : List Char :=
  match (nfd cluster_text).find? (fun ch => combiningClass ch == 0) with
  | some ch => [lowerCh ch]
  | none => []

/-- `contains_combining_diaeresis` of the source. -/
def contains_combining_diaeresis (cluster_text : List Char) : Bool :=
  cluster_text.any (fun ch => PRECOMPOSED_DIAERESIS.contains ch) ||
    (nfd cluster_text).contains '̈'

/-- `contains_iota_subscript` of the source. -/
def contains_iota_subscript (cluster_text : List Char) : Bool :=
  (nfd cluster_text).contains 'ͅ' ||
  (nfkd cluster_text).contains 'ͅ' ||
  cluster_text.any rawDecompHas0345 ||
  (match cluster_text with
   | [c] => PRECOMPOSED_IOTA_SUBS.contains c
   | _ => false)

/-- `contains_breathing` of the source (smooth 0313 / rough 0314 in NFD). -/
def contains_breathing (cluster_text : List Char) : Bool :=
  (nfd cluster_text).contains '̓' || (nfd cluster_text).contains '̔'

/-- `is_vowel_cluster` of the source. -/
def is_vowel_cluster (cluster_text : List Char) : Bool :=
  ((nfd cluster_text).filter (fun c => combiningClass c == 0)).any
    (fun b => BASE_VOWELS.contains (lowerCh b))

/-- `is_punct_or_space_cluster` of the source: every codepoint is
whitespace or has a punctuation/symbol category. -/
def is_punct_or_space_cluster (cluster_text : List Char) : Bool :=
  cluster_text.all (fun ch => isSpaceCh ch || ucat ch == .P || ucat ch == .S)

/-- `text[a:b]` for `0 ≤ a ≤ b` (Python pySlice). -/
def pySlice (text : List Char) (a b : Nat) : List Char :=
  (text.drop a).take (b - a)

/-- `only_punct_space_between` of the source: no letter or number category
codepoint in `text[a:b]`. -/
def only_punct_space_between (text : List Char) (a b : Nat) : Bool :=
  (pySlice text a b).all (fun ch => !(ucat ch == .L || ucat ch == .N))

-- ----- grapheme clusters (source lines 26-36) -----

/-- One grapheme cluster: a base codepoint plus trailing combining marks,
with its codepoint offsets into the normalized text and (after line
assignment, source lines 105-108) its 0-based line number.  `stop` is the
source's `end` field (a Lean keyword). -/
structure Cluster where
  text : List Char
  start : Nat
  stop : Nat
  line : Nat
deriving DecidableEq, Inhabited

/-- `grapheme_clusters` of the source: walk the codepoints starting at
offset `pos`; each cluster takes one codepoint and absorbs every
immediately following combining codepoint.  Line numbers are filled in
later (source sets them after segmentation).  The walk is written with a
structural fuel argument (each step consumes at least one codepoint, so
any fuel of at least the remaining length gives the loop's value; see
`graphemeClustersAux_congr`). -/
def graphemeClustersAux : Nat → List Char → Nat → List Cluster
  | _, [], _ => []
  | 0, _ :: _, _ => []
  | fuel + 1, c :: rest, pos =>
    let marks := rest.takeWhile (fun x => combiningClass x != 0)
    let rest2 := rest.dropWhile (fun x => combiningClass x != 0)
    { text := c :: marks, start := pos, stop := pos + 1 + marks.length, line := 0 }
      :: graphemeClustersAux fuel rest2 (pos + 1 + marks.length)

def graphemeClusters (s : List Char) (pos : Nat) : List Cluster :=
  graphemeClustersAux s.length s pos

/-- `text.count("\n", 0, idx)` (source line 106). -/
def countNl (text : List Char) (idx : Nat) : Nat :=
  (text.take idx).count '\n'

/-- Segmentation plus line assignment (source lines 103-108). -/
def linedClusters (text : List Char) : List Cluster :=
  (graphemeClusters text 0).map (fun c => { c with line := countNl text c.start })

-- ----- line index (source lines 110-128) -----

/-- Indices of line `ln`'s non-punctuation clusters, in increasing order
(the source iterates `line_to_idxs[ln]`, which lists a line's cluster
indices in increasing order, skipping punctuation-or-space clusters). -/
def lineIdxs (cs : List Cluster) (ln : Nat) : List Nat :=
  (List.range cs.length).filter (fun k =>
    (cs.getD k default).line == ln &&
      !(is_punct_or_space_cluster (cs.getD k default).text))

/-- `first_nonpunct` of the source: the first such index, if any
(the source's dict holds `None` exactly when this list is empty, and
`dict.get` of an absent line also yields `None`). -/
def first_nonpunct (cs : List Cluster) (ln : Nat) : Option Nat :=
  (lineIdxs cs ln).head?

/-- `last_nonpunct` of the source: the last such index, if any. -/
def last_nonpunct (cs : List Cluster) (ln : Nat) : Option Nat :=
  (lineIdxs cs ln).getLast?

-- ----- hiatus scanner (source lines 130-194) -----

/-- Occurrence kinds; rendered by the source as the strings
"intra-word" / "interword" / "across-line". -/
inductive Kind where
  | intraWord | interword | acrossLine
deriving DecidableEq, Inhabited

/-- One detected occurrence (the dict of source lines 181-193; the
`vowel_*` fields are attached by the expansion step, lines 230-233, and
are empty placeholders before it). -/
structure Occurrence where
  kind : Kind
  start_pos : Nat
  end_pos : Nat
  snippet : List Char
  cluster_i_text : List Char
  cluster_j_text : List Char
  line_i : Nat
  line_j : Nat
  i_index : Nat
  j_index : Nat
  intervening : List Char
  vowel_i_indices : List Nat
  vowel_j_indices : List Nat
  vowel_i_text : List Char
  vowel_j_text : List Char
deriving DecidableEq, Inhabited

/-- Kind classification of the candidate pair (i, j) (source lines
139-158): across-line only for adjacent lines validated by the line
index; empty intervening text is intra-word; punctuation/space-only
intervening text on one line is interword; otherwise no kind. -/
def classifyKind (text : List Char) (cs : List Cluster) (i j : Nat) : Option Kind :=
  let ci := cs.getD i default
  let cj := cs.getD j default
  let intervening := pySlice text ci.stop cj.start
  if intervening.contains '\n' then
    if cj.line == ci.line + 1 then
      match last_nonpunct cs ci.line, first_nonpunct cs cj.line with
      | some lastIdx, some firstIdx =>
        if lastIdx == i && firstIdx == j then some .acrossLine else none
      | _, _ => none
    else none
  else if intervening.isEmpty then some .intraWord
  else if only_punct_space_between text ci.stop cj.start && ci.line == cj.line then
    some .interword
  else none

/-- The intra-word diphthong/hiatus decision (source lines 163-176),
evaluated in the source's order: diphthong-set match, optional
iota-subscript rule, then the diaeresis override (back to hiatus), then
the breathing override (also sets `is_diph` to False). -/
def isDiphthongAt (flag : Bool) (ci cj : Cluster) : Bool :=
  let b1 := base_letter ci.text
  let b2 := base_letter cj.text
  let pair := b1 ++ b2
  let d0 := DIPHTHONGS.contains pair
  let d1 := if flag && (contains_iota_subscript ci.text || contains_iota_subscript cj.text)
            then true else d0
  let d2 := if contains_combining_diaeresis cj.text then false else d1
  if contains_breathing ci.text then false else d2

/-- The occurrence dict appended at source lines 181-193. -/
def mkOccurrence (text : List Char) (cs : List Cluster) (i j : Nat) (kind : Kind) :
    Occurrence :=
  let ci := cs.getD i default
  let cj := cs.getD j default
  { kind := kind
    start_pos := ci.start
    end_pos := cj.stop
    snippet := pySlice text ci.start cj.stop
    cluster_i_text := ci.text
    cluster_j_text := cj.text
    line_i := ci.line + 1
    line_j := cj.line + 1
    i_index := i
    j_index := j
    intervening := pySlice text ci.stop cj.start
    vowel_i_indices := []
    vowel_j_indices := []
    vowel_i_text := []
    vowel_j_text := [] }

/-- The inner lookahead loop from start cluster `i` over candidate indices
`js` (source lines 134-194): skip non-vowel candidates (`continue`), skip
unclassifiable pairs (`continue`), stop without recording when an
intra-word pair is classified as diphthong (`break`), otherwise record the
occurrence and stop (`break`). -/
def scanFrom (text : List Char) (cs : List Cluster) (flag : Bool) (i : Nat) :
    List Nat → Option Occurrence
  | [] => none
  | j :: rest =>
    let cj := cs.getD j default
    if !(is_vowel_cluster cj.text) then scanFrom text cs flag i rest
    else
      match classifyKind text cs i j with
      | none => scanFrom text cs flag i rest
      | some kind =>
        if (kind == Kind.intraWord) && isDiphthongAt flag (cs.getD i default) cj
        then none
        else some (mkOccurrence text cs i j kind)

/-- The candidate index list `range(i+1, min(i+1+K, len(clusters)))`. -/
def candidateIdxs (K : Nat) (len : Nat) (i : Nat) : List Nat :=
  List.range' (i + 1) (min (i + 1 + K) len - (i + 1))

/-- The full scanning loop (source lines 130-194): one optional occurrence
per vowel start cluster, in index order. -/
def rawOccurrences (text : List Char) (cs : List Cluster) (flag : Bool) (K : Nat) :
    List Occurrence :=
  (List.range cs.length).filterMap (fun i =>
    if is_vowel_cluster (cs.getD i default).text
    then scanFrom text cs flag i (candidateIdxs K cs.length i)
    else none)

-- ----- span expander (source lines 196-233) -----

/-- `safe_base` of the source. -/
def safe_base (cs : List Cluster) (idx : Nat) : List Char :=
  if idx < cs.length then base_letter (cs.getD idx default).text else []

/-- The vowel-span growth for one occurrence (source lines 206-228).
Guards involving `- 1` are written for `Nat`: Python's `i_idx - 1 >= 0`
is `1 ≤ i`, and Python's `j_idx - 1 > i_idx` (with `j ≥ 1` whenever it
can fire) is `i < j - 1` here. -/
def expand_vowel_spans (cs : List Cluster) (i j : Nat) : List Nat × List Nat :=
  let vi := [i]
  let vj := [j]
  let vi := if i + 1 < j && DIPHTHONGS.contains (safe_base cs i ++ safe_base cs (i + 1))
            then [i, i + 1] else vi
  let vi := if 1 ≤ i && DIPHTHONGS.contains (safe_base cs (i - 1) ++ safe_base cs i)
            then [i - 1, i] else vi
  let vj := if i < j - 1 && DIPHTHONGS.contains (safe_base cs (j - 1) ++ safe_base cs j)
            then [j - 1, j] else vj
  let vj := if j + 1 < cs.length &&
               DIPHTHONGS.contains (safe_base cs j ++ safe_base cs (j + 1)) &&
               i < j + 1
            then vj ++ [j + 1] else vj
  if vi.any (fun k => vj.contains k)
  then ([i], vj.filter (fun k => k != i))
  else (vi, vj)

/-- Attach the expanded spans and their display text to an occurrence
(source lines 202-233). -/
def expandOcc (cs : List Cluster) (occ : Occurrence) : Occurrence :=
  let vs := expand_vowel_spans cs occ.i_index occ.j_index
  { occ with
      vowel_i_indices := vs.1
      vowel_j_indices := vs.2
      vowel_i_text := vs.1.flatMap (fun k => (cs.getD k default).text)
      vowel_j_text := vs.2.flatMap (fun k => (cs.getD k default).text) }

-- ----- HTML annotation (source lines 235-259) -----

/-- `html.escape` with its default `quote=True`. -/
def htmlEscape (l : List Char) : List Char :=
  l.flatMap (fun c =>
    if c == '&' then "&amp;".data
    else if c == '<' then "&lt;".data
    else if c == '>' then "&gt;".data
    else if c == '"' then "&quot;".data
    else if c == '\'' then "&#x27;".data
    else [c])

/-- CSS class per kind (source lines 249-254). -/
def kindCss : Kind → List Char
  | .acrossLine => "hiatus-across".data
  | .interword => "hiatus-inter".data
  | .intraWord => "hiatus-intra".data

/-- Title text per kind (source lines 249-254). -/
def kindTitle : Kind → List Char
  | .acrossLine => "across-line hiatus".data
  | .interword => "interword hiatus".data
  | .intraWord => "intra-word hiatus".data

/-- The annotated-text construction (source lines 235-259).  A cluster
touched by one or more occurrences is wrapped in a span for the
lowest-numbered one (occurrence numbers are 1-based and ascend with list
position, so the minimum of `cluster_marks[k]` is the first hit). -/
def annotateClusters (cs : List Cluster) (occs : List Occurrence) : List Char :=
  (List.range cs.length).flatMap (fun k =>
    let cl := cs.getD k default
    let esc := htmlEscape cl.text
    let marks := (List.range occs.length).filterMap (fun n =>
      let occ := occs.getD n default
      if occ.vowel_i_indices.contains k || occ.vowel_j_indices.contains k
      then some (n + 1) else none)
    match marks with
    | [] => esc
    | m :: _ =>
      let occ := occs.getD (m - 1) default
      "<span class=".data ++ ['"'] ++ kindCss occ.kind ++ ['"'] ++
        " title=".data ++ ['"'] ++ htmlEscape (kindTitle occ.kind) ++ ['"'] ++
        ['>'] ++ esc ++ "</span>".data)

-- ----- the core entry point (source lines 96-260) -----

/-- The body of `detect_hiatus_in_text` after NFC normalization. -/
def detectNormalized (text : List Char) (flag : Bool) (K : Nat) :
    List Char × List Occurrence :=
  let cs := linedClusters text
  let raw := rawOccurrences text cs flag K
  let occurrences := raw.map (expandOcc cs)
  (annotateClusters cs occurrences, occurrences)

/-- `detect_hiatus_in_text(text, treat_iota_as_diphthong, max_cluster_lookahead)`:
normalize to NFC (source line 102), then run detection. -/
def detect_hiatus_in_text (text : List Char) (flag : Bool) (K : Nat) :
    List Char × List Occurrence :=
  detectNormalized (nfc text) flag K

-- ===== helper lemmas =====

-- ----- character data facts -----

theorem BASE_VOWELS_eq :
    BASE_VOWELS = ['α', 'ε', 'η', 'ι', 'ο', 'υ', 'ω'] := rfl

theorem lookupData_mem {c : Char} {d : CharData} (h : lookupData c = some d) :
    (c, d) ∈ charTable := by
  unfold lookupData at h
  rcases Option.map_eq_some'.mp h with ⟨e, hf, hd⟩
  have he := List.mem_of_find?_eq_some hf
  have hp := List.find?_some hf
  simp only [beq_iff_eq] at hp
  cases e with
  | mk e1 e2 =>
    simp only at hp hd
    subst hp
    subst hd
    exact he

theorem lookup_none_defaults {c : Char} (h : lookupData c = none) :
    combiningClass c = 0 ∧ ucat c = .C ∧ isSpaceCh c = false ∧ lowerCh c = c ∧
      decompFull c = [c] ∧ kdecompFull c = [c] ∧ rawDecompHas0345 c = false := by
  unfold combiningClass ucat isSpaceCh lowerCh decompFull kdecompFull rawDecompHas0345
  rw [h]
  exact ⟨rfl, rfl, rfl, rfl, rfl, rfl, rfl⟩

/-- Table check behind `decomp_base_vowel_letter`. -/
def vowelBaseCheck (e : Char × CharData) : Bool :=
  match e.2.decomp.find? (fun y => combiningClass y == 0) with
  | some x => !(decide (lowerCh x ∈ BASE_VOWELS)) || (e.2.cat == UCat.L && e.2.space == false)
  | none => true

theorem vowelBaseCheck_all : charTable.all vowelBaseCheck = true := by decide

/-- A character whose first non-combining canonical constituent lowercases
to a Greek vowel letter is a letter and not whitespace (true of the whole
modelled repertoire and of real Unicode). -/
theorem decomp_base_vowel_letter {c x : Char}
    (hx : (decompFull c).find? (fun y => combiningClass y == 0) = some x)
    (hv : lowerCh x ∈ BASE_VOWELS) : ucat c = .L ∧ isSpaceCh c = false := by
  cases hl : lookupData c with
  | none =>
    obtain ⟨hcc, _, _, hlow, hdec, _, _⟩ := lookup_none_defaults hl
    rw [hdec] at hx
    have hxc : x = c := by
      simp only [List.find?] at hx
      rcases h0 : (combiningClass c == 0) with _ | _
      · rw [h0] at hx; simp at hx
      · rw [h0] at hx; simpa using hx.symm
    rw [hxc, hlow] at hv
    -- every Greek vowel letter is in the table, contradicting `lookupData c = none`
    rw [BASE_VOWELS_eq] at hv
    fin_cases hv <;> exact absurd hl (by decide)
  | some d =>
    have hmem := lookupData_mem hl
    have hall := vowelBaseCheck_all
    rw [List.all_eq_true] at hall
    have hc := hall _ hmem
    unfold vowelBaseCheck at hc
    have hdec : decompFull c = d.decomp := by unfold decompFull; rw [hl]
    rw [hdec] at hx
    simp only [hx] at hc
    have hcat : ucat c = d.cat := by unfold ucat; rw [hl]
    have hsp : isSpaceCh c = d.space := by unfold isSpaceCh; rw [hl]
    rw [hcat, hsp]
    rcases Bool.or_eq_true_iff.mp hc with h | h
    · exfalso
      simp only [Bool.not_eq_eq_eq_not, Bool.not_true, decide_eq_false_iff_not] at h
      exact h hv
    · simp only [Bool.and_eq_true, beq_iff_eq] at h
      exact ⟨h.1, h.2⟩

/-- Table check behind `decomp_all_combining`. -/
def combiningDecompCheck (e : Char × CharData) : Bool :=
  (e.2.cc == 0) || e.2.decomp.all (fun x => combiningClass x != 0)

theorem combiningDecompCheck_all : charTable.all combiningDecompCheck = true := by decide

/-- The canonical decomposition of a combining character consists of
combining characters. -/
theorem decomp_all_combining {c : Char} (h : combiningClass c ≠ 0) :
    ∀ x ∈ decompFull c, combiningClass x ≠ 0 := by
  intro x hx
  cases hl : lookupData c with
  | none =>
    obtain ⟨hcc, _⟩ := lookup_none_defaults hl
    exact absurd hcc h
  | some d =>
    have hmem := lookupData_mem hl
    have hall := combiningDecompCheck_all
    rw [List.all_eq_true] at hall
    have hc := hall _ hmem
    unfold combiningDecompCheck at hc
    have hdec : decompFull c = d.decomp := by unfold decompFull; rw [hl]
    have hcc : combiningClass c = d.cc := by unfold combiningClass; rw [hl]
    rcases Bool.or_eq_true_iff.mp hc with h1 | h1
    · exfalso; apply h; rw [hcc]; simpa using h1
    · rw [List.all_eq_true] at h1
      have := h1 x (by rw [hdec] at hx; exact hx)
      simpa using this

/-- Table check behind `decomp_base_not_precomposed`. -/
def decomposedCheck (e : Char × CharData) : Bool :=
  e.2.decomp.all (fun x =>
    !(combiningClass x == 0) || (lowerCh x != 'ῃ' && lowerCh x != 'ῳ'))

theorem decomposedCheck_all : charTable.all decomposedCheck = true := by decide

/-- NFD output is fully decomposed: a non-combining canonical constituent
never lowercases to a precomposed iota-subscript letter. -/
theorem decomp_base_not_precomposed {c x : Char} (hx : x ∈ decompFull c)
    (hcc : combiningClass x = 0) : lowerCh x ≠ 'ῃ' ∧ lowerCh x ≠ 'ῳ' := by
  cases hl : lookupData c with
  | none =>
    obtain ⟨_, _, _, hlow, hdec, _, _⟩ := lookup_none_defaults hl
    rw [hdec] at hx
    simp only [List.mem_singleton] at hx
    subst hx
    rw [hlow]
    constructor
    · intro hbad; rw [hbad] at hl; exact absurd hl (by decide)
    · intro hbad; rw [hbad] at hl; exact absurd hl (by decide)
  | some d =>
    have hmem := lookupData_mem hl
    have hall := decomposedCheck_all
    rw [List.all_eq_true] at hall
    have hc := hall _ hmem
    unfold decomposedCheck at hc
    rw [List.all_eq_true] at hc
    have hdec : decompFull c = d.decomp := by unfold decompFull; rw [hl]
    have hx2 := hc x (by rw [hdec] at hx; exact hx)
    rcases Bool.or_eq_true_iff.mp hx2 with h1 | h1
    · exfalso
      simp only [Bool.not_eq_eq_eq_not, Bool.not_true, beq_eq_false_iff_ne] at h1
      exact h1 hcc
    · simp only [Bool.and_eq_true, bne_iff_ne] at h1
      exact h1

-- ----- grapheme cluster facts -----

theorem graphemeClustersAux_congr :
    ∀ (f1 f2 : Nat) (s : List Char) (pos : Nat), s.length ≤ f1 → s.length ≤ f2 →
      graphemeClustersAux f1 s pos = graphemeClustersAux f2 s pos := by
  intro f1
  induction f1 with
  | zero =>
    intro f2 s pos h1 _
    cases s with
    | nil => cases f2 <;> rfl
    | cons c rest => simp at h1
  | succ g1 ih =>
    intro f2 s pos h1 h2
    cases s with
    | nil => cases f2 <;> rfl
    | cons c rest =>
      cases f2 with
      | zero => simp at h2
      | succ g2 =>
        rw [graphemeClustersAux, graphemeClustersAux]
        congr 1
        apply ih
        · have := List.Sublist.length_le
            (List.dropWhile_sublist (l := rest) (fun x => combiningClass x != 0))
          simp only [List.length_cons] at h1
          omega
        · have := List.Sublist.length_le
            (List.dropWhile_sublist (l := rest) (fun x => combiningClass x != 0))
          simp only [List.length_cons] at h2
          omega

theorem graphemeClusters_nil (pos : Nat) : graphemeClusters [] pos = [] := rfl

theorem graphemeClusters_cons (c : Char) (rest : List Char) (pos : Nat) :
    graphemeClusters (c :: rest) pos =
      { text := c :: rest.takeWhile (fun x => combiningClass x != 0), start := pos,
        stop := pos + 1 + (rest.takeWhile (fun x => combiningClass x != 0)).length,
        line := 0 }
        :: graphemeClusters (rest.dropWhile (fun x => combiningClass x != 0))
            (pos + 1 + (rest.takeWhile (fun x => combiningClass x != 0)).length) := by
  show graphemeClustersAux (rest.length + 1) (c :: rest) pos = _
  rw [graphemeClustersAux]
  congr 1
  apply graphemeClustersAux_congr
  · exact List.Sublist.length_le (List.dropWhile_sublist _)
  · exact Nat.le_refl _

theorem gc_mem_spec {s : List Char} {pos : Nat} :
    ∀ c ∈ graphemeClusters s pos,
      (∃ hd tl, c.text = hd :: tl ∧ ∀ m ∈ tl, combiningClass m ≠ 0) ∧
      c.stop = c.start + c.text.length ∧
      pos ≤ c.start ∧
      c.text = (s.drop (c.start - pos)).take c.text.length ∧
      c.start + c.text.length ≤ pos + s.length := by
  have main : ∀ (n : Nat) (s : List Char), s.length ≤ n → ∀ (pos : Nat),
      ∀ c ∈ graphemeClusters s pos,
      (∃ hd tl, c.text = hd :: tl ∧ ∀ m ∈ tl, combiningClass m ≠ 0) ∧
      c.stop = c.start + c.text.length ∧
      pos ≤ c.start ∧
      c.text = (s.drop (c.start - pos)).take c.text.length ∧
      c.start + c.text.length ≤ pos + s.length := by
    intro n
    induction n with
    | zero =>
      intro s hs pos c hc
      cases s with
      | nil => rw [graphemeClusters_nil] at hc; simp at hc
      | cons c0 rest => simp at hs
    | succ n ih =>
      intro s hs pos c hc
      cases s with
      | nil => rw [graphemeClusters_nil] at hc; simp at hc
      | cons c0 rest =>
        rw [graphemeClusters_cons] at hc
        simp only [List.mem_cons] at hc
        set marks := rest.takeWhile (fun x => combiningClass x != 0) with hmarks
        set rest2 := rest.dropWhile (fun x => combiningClass x != 0) with hrest2
        have hsplit : rest = marks ++ rest2 := (List.takeWhile_append_dropWhile _ _).symm
        have hrlen : rest.length = marks.length + rest2.length := by
          conv_lhs => rw [hsplit]
          simp
        have htake : rest.take marks.length = marks := by
          conv_lhs => rw [hsplit]
          exact List.take_left marks rest2
        have hdrop : rest.drop marks.length = rest2 := by
          conv_lhs => rw [hsplit]
          exact List.drop_left marks rest2
        rcases hc with hc | hc
        · subst hc
          refine ⟨⟨c0, marks, rfl, ?_⟩, ?_, Nat.le_refl _, ?_, ?_⟩
          · intro m hm
            simpa using List.mem_takeWhile_imp hm
          · show pos + 1 + marks.length = pos + (c0 :: marks).length
            simp only [List.length_cons]
            omega
          · show c0 :: marks = ((c0 :: rest).drop (pos - pos)).take (c0 :: marks).length
            rw [Nat.sub_self, List.drop_zero, List.length_cons, List.take_succ_cons, htake]
          · show pos + (c0 :: marks).length ≤ pos + (c0 :: rest).length
            simp only [List.length_cons]
            omega
        · have hr2n : rest2.length ≤ n := by
            simp only [List.length_cons] at hs
            omega
          obtain ⟨h1, h2, h3, h4, h5⟩ := ih rest2 hr2n _ c hc
          refine ⟨h1, h2, by omega, ?_, ?_⟩
          · have hk : c.start - pos =
                (marks.length + (c.start - (pos + 1 + marks.length))) + 1 := by
              omega
            show c.text = ((c0 :: rest).drop (c.start - pos)).take c.text.length
            rw [hk, List.drop_succ_cons, ← List.drop_drop, hdrop]
            exact h4
          · show c.start + c.text.length ≤ pos + (c0 :: rest).length
            simp only [List.length_cons]
            omega
  exact main s.length s (Nat.le_refl _) pos

theorem gc_head_start {s : List Char} {pos : Nat} {c : Cluster}
    (h : (graphemeClusters s pos).head? = some c) : c.start = pos := by
  cases s with
  | nil => rw [graphemeClusters_nil] at h; simp at h
  | cons c0 rest =>
    rw [graphemeClusters_cons] at h
    simp only [List.head?_cons, Option.some_inj] at h
    rw [← h]

theorem gc_chain {s : List Char} {pos : Nat} :
    (graphemeClusters s pos).Chain' (fun a b => a.stop = b.start) := by
  have main : ∀ (n : Nat) (s : List Char), s.length ≤ n → ∀ (pos : Nat),
      (graphemeClusters s pos).Chain' (fun a b => a.stop = b.start) := by
    intro n
    induction n with
    | zero =>
      intro s hs pos
      cases s with
      | nil => rw [graphemeClusters_nil]; exact List.chain'_nil
      | cons c0 rest => simp at hs
    | succ n ih =>
      intro s hs pos
      cases s with
      | nil => rw [graphemeClusters_nil]; exact List.chain'_nil
      | cons c0 rest =>
        rw [graphemeClusters_cons]
        rw [List.chain'_cons']
        have hr2n : (rest.dropWhile (fun x => combiningClass x != 0)).length ≤ n := by
          have := List.Sublist.length_le
            (List.dropWhile_sublist (l := rest) (fun x => combiningClass x != 0))
          simp only [List.length_cons] at hs
          omega
        refine ⟨?_, ih _ hr2n _⟩
        intro b hb
        have := gc_head_start hb
        simp [this]
  exact main s.length s (Nat.le_refl _) pos

-- ----- lined cluster facts -----

/-- The cluster at index `k` of the segmentation of `t` (with lines). -/
def clAt (t : List Char) (k : Nat) : Cluster :=
  (linedClusters t).getD k default

theorem clAt_spec {t : List Char} {k : Nat} (h : k < (linedClusters t).length) :
    (∃ hd tl, (clAt t k).text = hd :: tl ∧ ∀ m ∈ tl, combiningClass m ≠ 0) ∧
    (clAt t k).stop = (clAt t k).start + (clAt t k).text.length ∧
    (clAt t k).text = (t.drop (clAt t k).start).take (clAt t k).text.length ∧
    (clAt t k).start + (clAt t k).text.length ≤ t.length ∧
    (clAt t k).line = countNl t (clAt t k).start := by
  have hlen : (linedClusters t).length = (graphemeClusters t 0).length :=
    List.length_map _ _
  have hk2 : k < (graphemeClusters t 0).length := hlen ▸ h
  have hmem : (graphemeClusters t 0).get ⟨k, hk2⟩ ∈ graphemeClusters t 0 :=
    List.get_mem _ _ _
  obtain ⟨h1, h2, _, h4, h5⟩ := gc_mem_spec _ hmem
  have hcl : clAt t k = { (graphemeClusters t 0).get ⟨k, hk2⟩ with
      line := countNl t ((graphemeClusters t 0).get ⟨k, hk2⟩).start } := by
    unfold clAt linedClusters
    rw [List.getD_eq_getElem _ _ (by simpa [linedClusters] using h)]
    simp [List.getElem_map]
  rw [hcl]
  exact ⟨h1, h2, by simpa using h4, by simpa using h5, rfl⟩

theorem clAt_chain {t : List Char} {k : Nat} (h : k + 1 < (linedClusters t).length) :
    (clAt t k).stop = (clAt t (k + 1)).start := by
  have hchain : (linedClusters t).Chain' (fun a b => a.stop = b.start) := by
    unfold linedClusters
    rw [List.chain'_map]
    exact gc_chain
  have := List.chain'_iff_get.mp hchain k (by omega)
  unfold clAt
  rw [List.getD_eq_getElem _ _ (by omega), List.getD_eq_getElem _ _ h]
  simpa using this

theorem clAt_text_len_pos {t : List Char} {k : Nat} (h : k < (linedClusters t).length) :
    0 < (clAt t k).text.length := by
  obtain ⟨⟨hd, tl, htext, _⟩, _⟩ := clAt_spec h
  rw [htext]
  simp

theorem clAt_start_lt {t : List Char} {k k' : Nat} (h : k < k')
    (h2 : k' < (linedClusters t).length) : (clAt t k).start < (clAt t k').start := by
  induction k' with
  | zero => omega
  | succ n ih =>
    have hs : (clAt t n).start < (clAt t (n + 1)).start := by
      have hc := clAt_chain h2
      have hspec := (clAt_spec (t := t) (k := n) (by omega)).2.1
      have hpos := clAt_text_len_pos (t := t) (k := n) (by omega)
      omega
    rcases Nat.lt_succ_iff_lt_or_eq.mp h with h3 | h3
    · exact lt_trans (ih h3 (by omega)) hs
    · rw [h3]; exact hs

theorem clAt_start_le {t : List Char} {k k' : Nat} (h : k ≤ k')
    (h2 : k' < (linedClusters t).length) : (clAt t k).start ≤ (clAt t k').start := by
  rcases Nat.lt_or_ge k k' with h3 | h3
  · exact Nat.le_of_lt (clAt_start_lt h3 h2)
  · have : k = k' := by omega
    rw [this]

theorem clAt_stop_le_start {t : List Char} {k k' : Nat} (h : k < k')
    (h2 : k' < (linedClusters t).length) : (clAt t k).stop ≤ (clAt t k').start := by
  have hc := clAt_chain (t := t) (k := k) (by omega)
  rw [hc]
  exact clAt_start_le h h2

theorem countNl_mono {t : List Char} {a b : Nat} (h : a ≤ b) :
    countNl t a ≤ countNl t b := by
  unfold countNl
  have : t.take a = (t.take b).take a := by
    rw [List.take_take]
    congr 1
    omega
  rw [this]
  exact List.Sublist.count_le (List.take_sublist a (t.take b)) '
'

theorem clAt_line_mono {t : List Char} {k k' : Nat} (h : k ≤ k')
    (h2 : k' < (linedClusters t).length) : (clAt t k).line ≤ (clAt t k').line := by
  have hl1 := (clAt_spec (t := t) (k := k) (by omega)).2.2.2.2
  have hl2 := (clAt_spec (t := t) (k := k') h2).2.2.2.2
  rw [hl1, hl2]
  exact countNl_mono (clAt_start_le h h2)

theorem cluster_text_in_pySlice {t : List Char} {k a b : Nat}
    (hk : k < (linedClusters t).length) (ha : a ≤ (clAt t k).start)
    (hb : (clAt t k).stop ≤ b) :
    ∀ x ∈ (clAt t k).text, x ∈ pySlice t a b := by
  obtain ⟨_, h2, h3, h4, _⟩ := clAt_spec hk
  intro x hx
  have hseg : (clAt t k).text =
      ((pySlice t a b).drop ((clAt t k).start - a)).take (clAt t k).text.length := by
    unfold pySlice
    rw [List.drop_take, List.drop_drop, List.take_take]
    have he1 : a + ((clAt t k).start - a) = (clAt t k).start := by omega
    have he2 : min (clAt t k).text.length (b - a - ((clAt t k).start - a)) =
        (clAt t k).text.length := by omega
    rw [he1, he2]
    exact h3
  rw [hseg] at hx
  exact List.mem_of_mem_drop (List.mem_of_mem_take hx)

theorem pySlice_ne_nil {t : List Char} {a b : Nat} (hab : a < b) (hbt : b ≤ t.length) :
    pySlice t a b ≠ [] := by
  unfold pySlice
  intro hcon
  have := congrArg List.length hcon
  simp only [List.length_take, List.length_drop, List.length_nil] at this
  omega


-- ----- line index facts -----

theorem lineIdxs_pairwise (cs : List Cluster) (ln : Nat) :
    (lineIdxs cs ln).Pairwise (· < ·) :=
  List.Pairwise.filter _ (List.pairwise_lt_range _)

theorem lineIdxs_mem {cs : List Cluster} {ln k : Nat} :
    k ∈ lineIdxs cs ln ↔
      k < cs.length ∧ (cs.getD k default).line = ln ∧
        is_punct_or_space_cluster (cs.getD k default).text = false := by
  unfold lineIdxs
  rw [List.mem_filter, List.mem_range]
  constructor
  · rintro ⟨h1, h2⟩
    simp only [Bool.and_eq_true, beq_iff_eq, Bool.not_eq_eq_eq_not, Bool.not_true] at h2
    exact ⟨h1, h2.1, h2.2⟩
  · rintro ⟨h1, h2, h3⟩
    refine ⟨h1, ?_⟩
    simp only [Bool.and_eq_true, beq_iff_eq, Bool.not_eq_eq_eq_not, Bool.not_true]
    exact ⟨h2, h3⟩

theorem head?_min_of_pairwise {l : List Nat} {f : Nat} (hp : l.Pairwise (· < ·))
    (h : l.head? = some f) : f ∈ l ∧ ∀ k ∈ l, f ≤ k := by
  cases l with
  | nil => simp at h
  | cons a rest =>
    simp only [List.head?_cons, Option.some_inj] at h
    subst h
    refine ⟨List.mem_cons_self _ _, ?_⟩
    intro k hk
    rcases List.mem_cons.mp hk with hk | hk
    · omega
    · have := (List.pairwise_cons.mp hp).1 k hk
      omega

theorem getLast?_max_of_pairwise {l : List Nat} {g : Nat} (hp : l.Pairwise (· < ·))
    (h : l.getLast? = some g) : g ∈ l ∧ ∀ k ∈ l, k ≤ g := by
  induction l with
  | nil => simp at h
  | cons a rest ih =>
    cases rest with
    | nil =>
      simp only [List.getLast?_singleton, Option.some_inj] at h
      subst h
      refine ⟨List.mem_singleton_self _, ?_⟩
      intro k hk
      rcases List.mem_singleton.mp hk with hk
      omega
    | cons b rest2 =>
      rw [List.getLast?_cons_cons] at h
      have hp2 := (List.pairwise_cons.mp hp).2
      obtain ⟨hg1, hg2⟩ := ih hp2 h
      refine ⟨List.mem_cons_of_mem _ hg1, ?_⟩
      intro k hk
      rcases List.mem_cons.mp hk with hk | hk
      · subst hk
        have := (List.pairwise_cons.mp hp).1 g hg1
        omega
      · exact hg2 k hk

theorem first_nonpunct_min {cs : List Cluster} {ln f : Nat}
    (h : first_nonpunct cs ln = some f) :
    f ∈ lineIdxs cs ln ∧ ∀ k ∈ lineIdxs cs ln, f ≤ k :=
  head?_min_of_pairwise (lineIdxs_pairwise cs ln) h

theorem last_nonpunct_max {cs : List Cluster} {ln g : Nat}
    (h : last_nonpunct cs ln = some g) :
    g ∈ lineIdxs cs ln ∧ ∀ k ∈ lineIdxs cs ln, k ≤ g :=
  getLast?_max_of_pairwise (lineIdxs_pairwise cs ln) h

-- ----- scanner facts -----

theorem mkOccurrence_i_index (text : List Char) (cs : List Cluster) (i j : Nat) (k : Kind) :
    (mkOccurrence text cs i j k).i_index = i := rfl

theorem mkOccurrence_j_index (text : List Char) (cs : List Cluster) (i j : Nat) (k : Kind) :
    (mkOccurrence text cs i j k).j_index = j := rfl

theorem mkOccurrence_kind (text : List Char) (cs : List Cluster) (i j : Nat) (k : Kind) :
    (mkOccurrence text cs i j k).kind = k := rfl

theorem mkOccurrence_start_pos (text : List Char) (cs : List Cluster) (i j : Nat) (k : Kind) :
    (mkOccurrence text cs i j k).start_pos = (cs.getD i default).start := rfl

theorem expandOcc_i_index (cs : List Cluster) (o : Occurrence) :
    (expandOcc cs o).i_index = o.i_index := rfl

theorem expandOcc_j_index (cs : List Cluster) (o : Occurrence) :
    (expandOcc cs o).j_index = o.j_index := rfl

theorem expandOcc_kind (cs : List Cluster) (o : Occurrence) :
    (expandOcc cs o).kind = o.kind := rfl

theorem expandOcc_start_pos (cs : List Cluster) (o : Occurrence) :
    (expandOcc cs o).start_pos = o.start_pos := rfl

theorem expandOcc_spans (cs : List Cluster) (o : Occurrence) :
    (expandOcc cs o).vowel_i_indices = (expand_vowel_spans cs o.i_index o.j_index).1 ∧
    (expandOcc cs o).vowel_j_indices = (expand_vowel_spans cs o.i_index o.j_index).2 :=
  ⟨rfl, rfl⟩

theorem scanFrom_some {text : List Char} {cs : List Cluster} {flag : Bool} {i : Nat}
    {js : List Nat} {o : Occurrence} (h : scanFrom text cs flag i js = some o) :
    ∃ j ∈ js, ∃ k,
      is_vowel_cluster (cs.getD j default).text = true ∧
      classifyKind text cs i j = some k ∧
      ((k == Kind.intraWord) &&
        isDiphthongAt flag (cs.getD i default) (cs.getD j default)) = false ∧
      o = mkOccurrence text cs i j k := by
  induction js with
  | nil => rw [scanFrom] at h; simp at h
  | cons j rest ih =>
    rw [scanFrom] at h
    by_cases hv : is_vowel_cluster (cs.getD j default).text
    · rw [hv] at h
      simp only [Bool.not_true, if_false, Bool.false_eq_true] at h
      cases hcl : classifyKind text cs i j with
      | none =>
        rw [hcl] at h
        obtain ⟨j2, hj2, hrest⟩ := ih h
        exact ⟨j2, List.mem_cons_of_mem _ hj2, hrest⟩
      | some k =>
        rw [hcl] at h
        have h2 : (if ((k == Kind.intraWord) &&
            isDiphthongAt flag (cs.getD i default) (cs.getD j default)) = true
            then (none : Option Occurrence)
            else some (mkOccurrence text cs i j k)) = some o := h
        by_cases hd : ((k == Kind.intraWord) &&
            isDiphthongAt flag (cs.getD i default) (cs.getD j default)) = true
        · rw [if_pos hd] at h2; simp at h2
        · rw [if_neg hd] at h2
          simp only [Option.some_inj] at h2
          exact ⟨j, List.mem_cons_self _ _, k, hv, hcl,
            Bool.eq_false_iff.mpr hd, h2.symm⟩
    · rw [Bool.eq_false_iff.mpr hv] at h
      simp only [Bool.not_false, if_true] at h
      obtain ⟨j2, hj2, hrest⟩ := ih h
      exact ⟨j2, List.mem_cons_of_mem _ hj2, hrest⟩

theorem candidate_mem {K len i j : Nat} :
    j ∈ candidateIdxs K len i ↔ i + 1 ≤ j ∧ j < min (i + 1 + K) len := by
  unfold candidateIdxs
  rw [List.mem_range'_1]
  omega

theorem raw_mem {text : List Char} {cs : List Cluster} {flag : Bool} {K : Nat}
    {o : Occurrence} :
    o ∈ rawOccurrences text cs flag K ↔
      ∃ i, i < cs.length ∧ is_vowel_cluster (cs.getD i default).text = true ∧
        scanFrom text cs flag i (candidateIdxs K cs.length i) = some o := by
  unfold rawOccurrences
  rw [List.mem_filterMap]
  constructor
  · rintro ⟨i, hi, hf⟩
    rw [List.mem_range] at hi
    by_cases hv : is_vowel_cluster (cs.getD i default).text
    · rw [if_pos hv] at hf
      exact ⟨i, hi, hv, hf⟩
    · rw [if_neg hv] at hf
      simp at hf
  · rintro ⟨i, hi, hv, hf⟩
    exact ⟨i, List.mem_range.mpr hi, by rw [if_pos hv]; exact hf⟩

theorem raw_occ_core {text : List Char} {cs : List Cluster} {flag : Bool} {K : Nat}
    {o : Occurrence} (h : o ∈ rawOccurrences text cs flag K) :
    o.i_index < o.j_index ∧ o.j_index < cs.length ∧ o.j_index ≤ o.i_index + K ∧
    o.i_index < cs.length ∧
    o.start_pos = (cs.getD o.i_index default).start ∧
    is_vowel_cluster (cs.getD o.j_index default).text = true ∧
    is_vowel_cluster (cs.getD o.i_index default).text = true ∧
    classifyKind text cs o.i_index o.j_index = some o.kind := by
  obtain ⟨i, hi, hv, hf⟩ := raw_mem.mp h
  obtain ⟨j, hj, k, hjv, hcl, _, ho⟩ := scanFrom_some hf
  obtain ⟨hj1, hj2⟩ := candidate_mem.mp hj
  subst ho
  rw [mkOccurrence_i_index, mkOccurrence_j_index, mkOccurrence_kind,
    mkOccurrence_start_pos]
  exact ⟨by omega, by omega, by omega, hi, rfl, hjv, hv, hcl⟩

theorem detect_occ_mem {t : List Char} {flag : Bool} {K : Nat} {occ : Occurrence} :
    occ ∈ (detect_hiatus_in_text t flag K).2 ↔
      ∃ o ∈ rawOccurrences (nfc t) (linedClusters (nfc t)) flag K,
        occ = expandOcc (linedClusters (nfc t)) o := by
  unfold detect_hiatus_in_text detectNormalized
  simp only [List.mem_map]
  constructor
  · rintro ⟨o, ho, he⟩; exact ⟨o, ho, he.symm⟩
  · rintro ⟨o, ho, he⟩; exact ⟨o, ho, he.symm⟩

theorem classifyKind_eq (text : List Char) (cs : List Cluster) (i j : Nat) :
    classifyKind text cs i j =
      (if (pySlice text (cs.getD i default).stop (cs.getD j default).start).contains '\n' then
        if (cs.getD j default).line == (cs.getD i default).line + 1 then
          match last_nonpunct cs (cs.getD i default).line,
              first_nonpunct cs (cs.getD j default).line with
          | some lastIdx, some firstIdx =>
            if lastIdx == i && firstIdx == j then some .acrossLine else none
          | _, _ => none
        else none
      else if (pySlice text (cs.getD i default).stop (cs.getD j default).start).isEmpty then
        some .intraWord
      else if only_punct_space_between text (cs.getD i default).stop (cs.getD j default).start
          && (cs.getD i default).line == (cs.getD j default).line then
        some .interword
      else none) := rfl

theorem classify_adjacent {t : List Char} {i : Nat}
    (h : i + 1 < (linedClusters t).length) :
    classifyKind t (linedClusters t) i (i + 1) = some Kind.intraWord := by
  have hchain := clAt_chain h
  have hempty : pySlice t ((linedClusters t).getD i default).stop
      ((linedClusters t).getD (i + 1) default).start = [] := by
    have h1 : ((linedClusters t).getD i default).stop = (clAt t i).stop := rfl
    have h2 : ((linedClusters t).getD (i + 1) default).start = (clAt t (i + 1)).start := rfl
    rw [h1, h2, ← hchain]
    unfold pySlice
    rw [Nat.sub_self]
    exact List.take_zero _
  rw [classifyKind_eq, hempty]
  simp

theorem candidate_cons {K len i : Nat} (hlen : i + 1 < len) (hK : 1 ≤ K) :
    ∃ rest, candidateIdxs K len i = (i + 1) :: rest := by
  unfold candidateIdxs
  have hn : min (i + 1 + K) len - (i + 1) = (min (i + 1 + K) len - (i + 1) - 1) + 1 := by
    omega
  rw [hn, List.range'_succ]
  exact ⟨_, rfl⟩

theorem scanFrom_adjacent {t : List Char} {flag : Bool} {K i : Nat}
    (hlen : i + 1 < (linedClusters t).length) (hK : 1 ≤ K)
    (hv : is_vowel_cluster (clAt t (i + 1)).text = true) :
    scanFrom t (linedClusters t) flag i
        (candidateIdxs K (linedClusters t).length i) =
      (if isDiphthongAt flag (clAt t i) (clAt t (i + 1)) then none
       else some (mkOccurrence t (linedClusters t) i (i + 1) Kind.intraWord)) := by
  obtain ⟨rest, hcand⟩ := candidate_cons hlen hK
  rw [hcand, scanFrom]
  have hv2 : is_vowel_cluster ((linedClusters t).getD (i + 1) default).text = true := hv
  rw [hv2]
  simp only [Bool.not_true, Bool.false_eq_true, if_false]
  rw [classify_adjacent hlen]
  rfl

-- ----- ordering of the occurrence list -----

theorem pairwise_filterMap_rel {l : List Nat} {g : Nat → Option Occurrence}
    {P : Nat → Occurrence → Prop} {R : Occurrence → Occurrence → Prop}
    (hg : ∀ i o, i ∈ l → g i = some o → P i o)
    (hrel : ∀ i1 i2 o1 o2, i1 < i2 → P i1 o1 → P i2 o2 → R o1 o2)
    (hl : l.Pairwise (· < ·)) : (l.filterMap g).Pairwise R := by
  induction l with
  | nil => simp
  | cons a rest ih =>
    have hp := List.pairwise_cons.mp hl
    have hgr : ∀ i o, i ∈ rest → g i = some o → P i o := fun i o hi =>
      hg i o (List.mem_cons_of_mem _ hi)
    cases hga : g a with
    | none => rw [List.filterMap_cons_none hga]; exact ih hgr hp.2
    | some o =>
      rw [List.filterMap_cons_some hga]
      rw [List.pairwise_cons]
      refine ⟨?_, ih hgr hp.2⟩
      intro b hb
      obtain ⟨i2, hi2, hgi2⟩ := List.mem_filterMap.mp hb
      exact hrel a i2 o b (hp.1 i2 hi2)
        (hg a o (List.mem_cons_self _ _) hga) (hgr i2 b hi2 hgi2)

theorem occs_pairwise {text : List Char} {flag : Bool} {K : Nat} :
    ((rawOccurrences text (linedClusters text) flag K).map
        (expandOcc (linedClusters text))).Pairwise
      (fun a b => a.i_index < b.i_index ∧ a.start_pos < b.start_pos) := by
  rw [List.pairwise_map]
  simp only [expandOcc_i_index, expandOcc_start_pos]
  unfold rawOccurrences
  apply pairwise_filterMap_rel
    (P := fun i o => o.i_index = i ∧
      o.start_pos = ((linedClusters text).getD i default).start ∧
      i < (linedClusters text).length)
  · intro i o hi hgi
    rw [List.mem_range] at hi
    by_cases hv : is_vowel_cluster (((linedClusters text).getD i default).text)
    · rw [if_pos hv] at hgi
      obtain ⟨j, hj, k, _, _, _, ho⟩ := scanFrom_some hgi
      subst ho
      exact ⟨rfl, rfl, hi⟩
    · rw [if_neg hv] at hgi
      simp at hgi
  · rintro i1 i2 o1 o2 hlt ⟨h1a, h1b, _⟩ ⟨h2a, h2b, h2c⟩
    constructor
    · omega
    · rw [h1b, h2b]
      exact clAt_start_lt hlt h2c
  · exact List.pairwise_lt_range _

theorem pairwise_filter_count_le {L : List Occurrence} {i : Nat}
    (hp : L.Pairwise (fun a b => a.i_index < b.i_index)) :
    (L.filter (fun o => o.i_index == i)).length ≤ 1 := by
  induction L with
  | nil => simp
  | cons a rest ih =>
    have hpc := List.pairwise_cons.mp hp
    rw [List.filter_cons]
    by_cases ha : (a.i_index == i) = true
    · rw [if_pos ha]
      have hnil : rest.filter (fun o => o.i_index == i) = [] := by
        rw [List.filter_eq_nil_iff]
        intro b hb
        have := hpc.1 b hb
        simp only [beq_iff_eq] at ha ⊢
        omega
      rw [hnil]
      simp
    · rw [if_neg ha]
      exact ih hpc.2

-- ----- base letters come from the cluster head -----

theorem base_letter_head {hd : Char} {tl : List Char}
    (htl : ∀ m ∈ tl, combiningClass m ≠ 0) :
    base_letter (hd :: tl) =
      (match (decompFull hd).find? (fun y => combiningClass y == 0) with
       | some x => [lowerCh x]
       | none => []) := by
  unfold base_letter
  have hnfd : nfd (hd :: tl) = decompFull hd ++ tl.flatMap decompFull := by
    unfold nfd
    rw [List.flatMap_cons]
  rw [hnfd, List.find?_append]
  cases hf : (decompFull hd).find? (fun y => combiningClass y == 0) with
  | some x => rfl
  | none =>
    have hrest : (tl.flatMap decompFull).find? (fun y => combiningClass y == 0) = none := by
      rw [List.find?_eq_none]
      intro a ha
      obtain ⟨m, hm, hma⟩ := List.mem_flatMap.mp ha
      have := decomp_all_combining (htl m hm) a hma
      simpa using this
    rw [hrest]
    rfl

theorem clAt_base_some {t : List Char} {k : Nat} {a : Char}
    (hk : k < (linedClusters t).length) (hb : base_letter (clAt t k).text = [a]) :
    ∃ hd x, (∃ tl, (clAt t k).text = hd :: tl) ∧
      (decompFull hd).find? (fun y => combiningClass y == 0) = some x ∧
      lowerCh x = a ∧ x ∈ decompFull hd ∧ combiningClass x = 0 := by
  obtain ⟨⟨hd, tl, htext, htl⟩, _⟩ := clAt_spec hk
  rw [htext, base_letter_head htl] at hb
  cases hf : (decompFull hd).find? (fun y => combiningClass y == 0) with
  | none => rw [hf] at hb; simp at hb
  | some x =>
    rw [hf] at hb
    simp only [List.cons.injEq, and_true] at hb
    refine ⟨hd, x, ⟨tl, htext⟩, hf, hb, List.mem_of_find?_eq_some hf, ?_⟩
    have := List.find?_some hf
    simpa using this

/-- A cluster whose base letter is a Greek vowel starts with a
letter-category, non-whitespace codepoint. -/
theorem clAt_base_vowel_letterHead {t : List Char} {k : Nat} {a : Char}
    (hk : k < (linedClusters t).length) (hb : base_letter (clAt t k).text = [a])
    (hv : a ∈ BASE_VOWELS) :
    ∃ hd tl, (clAt t k).text = hd :: tl ∧ ucat hd = .L ∧ isSpaceCh hd = false := by
  obtain ⟨hd, x, ⟨tl, htext⟩, hf, hlow, _, _⟩ := clAt_base_some hk hb
  obtain ⟨hcat, hsp⟩ := decomp_base_vowel_letter hf (by rw [hlow]; exact hv)
  exact ⟨hd, tl, htext, hcat, hsp⟩

/-- Base letters are fully decomposed: never a precomposed
iota-subscript letter. -/
theorem clAt_base_ne_precomp {t : List Char} {k : Nat}
    (hk : k < (linedClusters t).length) :
    base_letter (clAt t k).text ≠ ['ῃ'] ∧ base_letter (clAt t k).text ≠ ['ῳ'] := by
  constructor
  · intro hb
    obtain ⟨hd, x, _, _, hlow, hmem, hcc⟩ := clAt_base_some hk hb
    exact (decomp_base_not_precomposed hmem hcc).1 hlow
  · intro hb
    obtain ⟨hd, x, _, _, hlow, hmem, hcc⟩ := clAt_base_some hk hb
    exact (decomp_base_not_precomposed hmem hcc).2 hlow

-- ----- a recorded pair never has a letter-headed cluster strictly between -----

theorem raw_no_letter_between {t : List Char} {flag : Bool} {K : Nat} {o : Occurrence}
    (h : o ∈ rawOccurrences t (linedClusters t) flag K) {m : Nat}
    (h1 : o.i_index < m) (h2 : m < o.j_index) :
    ¬ ∃ hd tl, (clAt t m).text = hd :: tl ∧ ucat hd = .L ∧ isSpaceCh hd = false := by
  obtain ⟨hij, hjlen, _, hilen, _, _, _, hclass⟩ := raw_occ_core h
  rintro ⟨hd, tl, htext, hcat, hsp⟩
  have hmlen : m < (linedClusters t).length := by omega
  have hnp : is_punct_or_space_cluster (clAt t m).text = false := by
    rw [htext]
    unfold is_punct_or_space_cluster
    have hph : (isSpaceCh hd || ucat hd == UCat.P || ucat hd == UCat.S) = false := by
      rw [hcat, hsp]
      rfl
    simp [List.all_cons, hph]
  rw [classifyKind_eq] at hclass
  have hgi : (linedClusters t).getD o.i_index default = clAt t o.i_index := rfl
  have hgj : (linedClusters t).getD o.j_index default = clAt t o.j_index := rfl
  rw [hgi, hgj] at hclass
  have hstart_j_le : (clAt t o.j_index).start < t.length := by
    obtain ⟨_, _, _, hb, _⟩ := clAt_spec hjlen
    have := clAt_text_len_pos hjlen
    omega
  have hslt : (clAt t o.i_index).stop < (clAt t o.j_index).start := by
    have ha := clAt_stop_le_start h1 hmlen
    have hb := clAt_start_lt h2 hjlen
    omega
  by_cases hnl : (pySlice t (clAt t o.i_index).stop
      (clAt t o.j_index).start).contains '\n' = true
  · rw [if_pos hnl] at hclass
    by_cases hline : ((clAt t o.j_index).line == (clAt t o.i_index).line + 1) = true
    · rw [if_pos hline] at hclass
      cases hlast : last_nonpunct (linedClusters t) (clAt t o.i_index).line with
      | none => rw [hlast] at hclass; simp at hclass
      | some lastIdx =>
        cases hfirst : first_nonpunct (linedClusters t) (clAt t o.j_index).line with
        | none => rw [hlast, hfirst] at hclass; simp at hclass
        | some firstIdx =>
          rw [hlast, hfirst] at hclass
          by_cases hcond : (lastIdx == o.i_index && firstIdx == o.j_index) = true
          · simp only [beq_iff_eq, Bool.and_eq_true] at hcond hline
            obtain ⟨hcl1, hcl2⟩ := hcond
            have hl1 : (clAt t o.i_index).line ≤ (clAt t m).line :=
              clAt_line_mono (Nat.le_of_lt h1) hmlen
            have hl2 : (clAt t m).line ≤ (clAt t o.j_index).line :=
              clAt_line_mono (Nat.le_of_lt h2) hjlen
            have hcases : (clAt t m).line = (clAt t o.i_index).line ∨
                (clAt t m).line = (clAt t o.j_index).line := by omega
            rcases hcases with hc | hc
            · have hmem : m ∈ lineIdxs (linedClusters t) (clAt t o.i_index).line :=
                lineIdxs_mem.mpr ⟨hmlen, hc, hnp⟩
              have := (last_nonpunct_max hlast).2 m hmem
              omega
            · have hmem : m ∈ lineIdxs (linedClusters t) (clAt t o.j_index).line :=
                lineIdxs_mem.mpr ⟨hmlen, hc, hnp⟩
              have := (first_nonpunct_min hfirst).2 m hmem
              omega
          · have hclass2 : (if (lastIdx == o.i_index && firstIdx == o.j_index) = true
                then some Kind.acrossLine else none) = some o.kind := hclass
            rw [if_neg hcond] at hclass2
            simp at hclass2
    · rw [if_neg hline] at hclass
      simp at hclass
  · rw [if_neg hnl] at hclass
    by_cases hemp : (pySlice t (clAt t o.i_index).stop
        (clAt t o.j_index).start).isEmpty = true
    · have hne := pySlice_ne_nil (t := t) hslt (by omega)
      rw [List.isEmpty_iff] at hemp
      exact hne hemp
    · rw [if_neg hemp] at hclass
      by_cases hop : (only_punct_space_between t (clAt t o.i_index).stop
          (clAt t o.j_index).start &&
          ((clAt t o.i_index).line == (clAt t o.j_index).line)) = true
      · have hopt : only_punct_space_between t (clAt t o.i_index).stop
            (clAt t o.j_index).start = true := (Bool.and_eq_true _ _ |>.mp hop).1
        have hhd_mem : hd ∈ pySlice t (clAt t o.i_index).stop
            (clAt t o.j_index).start := by
          apply cluster_text_in_pySlice hmlen (clAt_stop_le_start h1 hmlen)
            (clAt_stop_le_start h2 hjlen)
          rw [htext]
          exact List.mem_cons_self _ _
        unfold only_punct_space_between at hopt
        rw [List.all_eq_true] at hopt
        have hht := hopt hd hhd_mem
        rw [hcat] at hht
        simp at hht
      · rw [if_neg hop] at hclass
        simp at hclass

-- ----- diphthong pair analysis -----

theorem DIPHTHONGS_eq :
    DIPHTHONGS = [['α', 'ι'], ['α', 'υ'], ['ε', 'ι'], ['ε', 'υ'], ['ο', 'ι'],
      ['ο', 'υ'], ['υ', 'ι'], ['ω', 'ι'], ['ῃ'], ['ῳ']] := rfl

theorem base_letter_shape (txt : List Char) :
    base_letter txt = [] ∨ ∃ a, base_letter txt = [a] := by
  unfold base_letter
  cases (nfd txt).find? (fun ch => combiningClass ch == 0) with
  | none => exact Or.inl rfl
  | some x => exact Or.inr ⟨lowerCh x, rfl⟩

theorem diph_pair_cases {p q : List Char}
    (hp : p = [] ∨ ∃ a, p = [a]) (hq : q = [] ∨ ∃ b, q = [b])
    (h : DIPHTHONGS.contains (p ++ q) = true) :
    (∃ a b, p = [a] ∧ q = [b] ∧ a ∈ BASE_VOWELS) ∨
    (q = ['ῃ'] ∨ q = ['ῳ']) ∨ (p = ['ῃ'] ∨ p = ['ῳ']) := by
  have hmem : (p ++ q) ∈ DIPHTHONGS := by
    simpa using h
  rw [DIPHTHONGS_eq] at hmem
  rcases hp with hp | ⟨a, hp⟩ <;> rcases hq with hq | ⟨b, hq⟩ <;> subst hp <;> subst hq
  · exact absurd hmem (by decide)
  · simp only [List.nil_append, List.mem_cons, List.cons.injEq, and_true,
      List.not_mem_nil, or_false, List.mem_singleton] at hmem
    rcases hmem with ⟨_, hq1⟩ | ⟨_, hq2⟩ | ⟨_, hq3⟩ | ⟨_, hq4⟩ | ⟨_, hq5⟩ |
        ⟨_, hq6⟩ | ⟨_, hq7⟩ | ⟨_, hq8⟩ | hq9 | hq0
    · exact absurd hq1 (by simp)
    · exact absurd hq2 (by simp)
    · exact absurd hq3 (by simp)
    · exact absurd hq4 (by simp)
    · exact absurd hq5 (by simp)
    · exact absurd hq6 (by simp)
    · exact absurd hq7 (by simp)
    · exact absurd hq8 (by simp)
    · subst hq9; exact Or.inr (Or.inl (Or.inl rfl))
    · subst hq0; exact Or.inr (Or.inl (Or.inr rfl))
  · simp only [List.append_nil, List.mem_cons, List.cons.injEq, and_true,
      List.not_mem_nil, or_false, List.mem_singleton] at hmem
    rcases hmem with ⟨_, hp1⟩ | ⟨_, hp2⟩ | ⟨_, hp3⟩ | ⟨_, hp4⟩ | ⟨_, hp5⟩ |
        ⟨_, hp6⟩ | ⟨_, hp7⟩ | ⟨_, hp8⟩ | hp9 | hp0
    · exact absurd hp1 (by simp)
    · exact absurd hp2 (by simp)
    · exact absurd hp3 (by simp)
    · exact absurd hp4 (by simp)
    · exact absurd hp5 (by simp)
    · exact absurd hp6 (by simp)
    · exact absurd hp7 (by simp)
    · exact absurd hp8 (by simp)
    · subst hp9; exact Or.inr (Or.inr (Or.inl rfl))
    · subst hp0; exact Or.inr (Or.inr (Or.inr rfl))
  · simp only [List.cons_append, List.nil_append, List.mem_cons, List.cons.injEq,
      and_true, List.not_mem_nil, or_false, List.mem_singleton] at hmem
    left
    rcases hmem with ⟨ha1, hb1⟩ | ⟨ha2, hb2⟩ | ⟨ha3, hb3⟩ | ⟨ha4, hb4⟩ |
        ⟨ha5, hb5⟩ | ⟨ha6, hb6⟩ | ⟨ha7, hb7⟩ | ⟨ha8, hb8⟩ | hs1 | hs2 <;>
      try simp_all
    · decide
    · decide
    · decide
    · decide
    · decide
    · decide
    · decide
    · decide

/-- For a recorded occurrence, the right span's leftward growth condition
(source line 217) is always false: its diphthong test would require a
vowel-lettered cluster strictly between the pair, which the kind
classification excludes. -/
theorem raw_c3_false {t : List Char} {flag : Bool} {K : Nat} {o : Occurrence}
    (h : o ∈ rawOccurrences t (linedClusters t) flag K) :
    (decide (o.i_index < o.j_index - 1) && DIPHTHONGS.contains
      (safe_base (linedClusters t) (o.j_index - 1) ++
       safe_base (linedClusters t) o.j_index)) = false := by
  by_contra hne
  rw [Bool.not_eq_false, Bool.and_eq_true] at hne
  obtain ⟨h1b, h2b⟩ := hne
  have hlt : o.i_index < o.j_index - 1 := of_decide_eq_true h1b
  obtain ⟨hij, hjlen, _, hilen, _, _, _, _⟩ := raw_occ_core h
  have hm2 : o.j_index - 1 < o.j_index := by omega
  have hmlen : o.j_index - 1 < (linedClusters t).length := by omega
  have hsbm : safe_base (linedClusters t) (o.j_index - 1) =
      base_letter (clAt t (o.j_index - 1)).text := by
    unfold safe_base
    rw [if_pos hmlen]
    rfl
  have hsbj : safe_base (linedClusters t) o.j_index =
      base_letter (clAt t o.j_index).text := by
    unfold safe_base
    rw [if_pos hjlen]
    rfl
  rw [hsbm, hsbj] at h2b
  rcases diph_pair_cases (base_letter_shape _) (base_letter_shape _) h2b with
    ⟨a, b, hpa, _, hav⟩ | hq | hp
  · have hlh := clAt_base_vowel_letterHead hmlen hpa hav
    exact raw_no_letter_between h hlt hm2 hlh
  · rcases hq with hq | hq
    · exact (clAt_base_ne_precomp hjlen).1 hq
    · exact (clAt_base_ne_precomp hjlen).2 hq
  · rcases hp with hp | hp
    · exact (clAt_base_ne_precomp hmlen).1 hp
    · exact (clAt_base_ne_precomp hmlen).2 hp

-- ----- span expansion characterization -----

/-- The left span after growth (source lines 206-215), before the overlap
check: the second growth rule overwrites the first. -/
def expandVi (cs : List Cluster) (i j : Nat) : List Nat :=
  if 1 ≤ i && DIPHTHONGS.contains (safe_base cs (i - 1) ++ safe_base cs i)
  then [i - 1, i]
  else if i + 1 < j && DIPHTHONGS.contains (safe_base cs i ++ safe_base cs (i + 1))
  then [i, i + 1]
  else [i]

/-- The right span after growth (source lines 217-224), before the overlap
check. -/
def expandVj (cs : List Cluster) (i j : Nat) : List Nat :=
  if j + 1 < cs.length && DIPHTHONGS.contains (safe_base cs j ++ safe_base cs (j + 1))
      && i < j + 1
  then (if i < j - 1 && DIPHTHONGS.contains (safe_base cs (j - 1) ++ safe_base cs j)
        then [j - 1, j] else [j]) ++ [j + 1]
  else (if i < j - 1 && DIPHTHONGS.contains (safe_base cs (j - 1) ++ safe_base cs j)
        then [j - 1, j] else [j])

theorem expand_vowel_spans_eq (cs : List Cluster) (i j : Nat) :
    expand_vowel_spans cs i j =
      (if (expandVi cs i j).any (fun k => (expandVj cs i j).contains k)
       then ([i], (expandVj cs i j).filter (fun k => k != i))
       else (expandVi cs i j, expandVj cs i j)) := rfl

theorem expandVi_len (cs : List Cluster) (i j : Nat) : (expandVi cs i j).length ≤ 2 := by
  unfold expandVi
  split_ifs <;> simp

theorem expandVj_len {cs : List Cluster} {i j : Nat}
    (hc3 : (decide (i < j - 1) && DIPHTHONGS.contains
      (safe_base cs (j - 1) ++ safe_base cs j)) = false) :
    (expandVj cs i j).length ≤ 2 := by
  unfold expandVj
  rw [hc3]
  split_ifs <;> simp_all

theorem expand_spans_len {cs : List Cluster} {i j : Nat}
    (hc3 : (decide (i < j - 1) && DIPHTHONGS.contains
      (safe_base cs (j - 1) ++ safe_base cs j)) = false) :
    (expand_vowel_spans cs i j).1.length ≤ 2 ∧
    (expand_vowel_spans cs i j).2.length ≤ 2 := by
  rw [expand_vowel_spans_eq]
  split_ifs with h
  · exact ⟨by simp, le_trans (List.length_filter_le _ _) (expandVj_len hc3)⟩
  · exact ⟨expandVi_len _ _ _, expandVj_len hc3⟩

theorem expand_spans_disjoint (cs : List Cluster) (i j : Nat) :
    ∀ k ∈ (expand_vowel_spans cs i j).1, k ∉ (expand_vowel_spans cs i j).2 := by
  rw [expand_vowel_spans_eq]
  split_ifs with h
  · intro k hk
    simp only [List.mem_singleton] at hk
    subst hk
    intro hmem
    rw [List.mem_filter] at hmem
    simp at hmem
  · intro k hk hmem
    apply h
    rw [List.any_eq_true]
    refine ⟨k, hk, ?_⟩
    simpa using hmem

theorem expand_spans_overlap {cs : List Cluster} {i j : Nat}
    (hov : (expandVi cs i j).any (fun k => (expandVj cs i j).contains k) = true) :
    expand_vowel_spans cs i j = ([i], (expandVj cs i j).filter (fun k => k != i)) := by
  rw [expand_vowel_spans_eq, if_pos hov]

-- ----- diphthong decision evaluation -----

theorem isDiphthongAt_eq (flag : Bool) (ci cj : Cluster) :
    isDiphthongAt flag ci cj =
      (if contains_breathing ci.text then false
       else if contains_combining_diaeresis cj.text then false
       else if flag && (contains_iota_subscript ci.text || contains_iota_subscript cj.text)
       then true
       else DIPHTHONGS.contains (base_letter ci.text ++ base_letter cj.text)) := rfl

theorem isDiphthongAt_of_breathing {flag : Bool} {ci cj : Cluster}
    (h : contains_breathing ci.text = true) : isDiphthongAt flag ci cj = false := by
  rw [isDiphthongAt_eq, if_pos h]

theorem isDiphthongAt_of_diaeresis {flag : Bool} {ci cj : Cluster}
    (h : contains_combining_diaeresis cj.text = true) :
    isDiphthongAt flag ci cj = false := by
  rw [isDiphthongAt_eq]
  by_cases hb : contains_breathing ci.text = true
  · rw [if_pos hb]
  · rw [if_neg hb, if_pos h]

theorem isDiphthongAt_of_pair {flag : Bool} {ci cj : Cluster}
    (hpair : (base_letter ci.text ++ base_letter cj.text) ∈ DIPHTHONGS)
    (hb : contains_breathing ci.text = false)
    (hd : contains_combining_diaeresis cj.text = false) :
    isDiphthongAt flag ci cj = true := by
  rw [isDiphthongAt_eq, if_neg (by simp [hb]), if_neg (by simp [hd])]
  by_cases hi : (flag && (contains_iota_subscript ci.text ||
      contains_iota_subscript cj.text)) = true
  · rw [if_pos hi]
  · rw [if_neg hi]
    simpa using hpair

-- ----- adjacent intra-word pairs -----

theorem adjacent_occ_of_not_diph {u : List Char} {flag : Bool} {K i : Nat}
    (hK : 1 ≤ K) (hlen : i + 1 < (linedClusters u).length)
    (hvi : is_vowel_cluster (clAt u i).text = true)
    (hvj : is_vowel_cluster (clAt u (i + 1)).text = true)
    (hnd : isDiphthongAt flag (clAt u i) (clAt u (i + 1)) = false) :
    mkOccurrence u (linedClusters u) i (i + 1) Kind.intraWord ∈
      rawOccurrences u (linedClusters u) flag K := by
  apply raw_mem.mpr
  refine ⟨i, by omega, hvi, ?_⟩
  rw [scanFrom_adjacent hlen hK hvj, if_neg (by rw [hnd]; simp)]

theorem adjacent_no_occ_of_diph {u : List Char} {flag : Bool} {K i : Nat}
    (hK : 1 ≤ K) (hlen : i + 1 < (linedClusters u).length)
    (hvj : is_vowel_cluster (clAt u (i + 1)).text = true)
    (hd : isDiphthongAt flag (clAt u i) (clAt u (i + 1)) = true) :
    ∀ o ∈ rawOccurrences u (linedClusters u) flag K, o.i_index ≠ i := by
  intro o ho hoi
  obtain ⟨i2, hi2, hv2, hscan⟩ := raw_mem.mp ho
  obtain ⟨j, _, k, _, _, _, hom⟩ := scanFrom_some hscan
  have hi2i : i2 = i := by
    rw [hom, mkOccurrence_i_index] at hoi
    exact hoi
  subst hi2i
  rw [scanFrom_adjacent hlen hK hvj, if_pos hd] at hscan
  exact Option.noConfusion hscan

-- ===== the claims =====

/-- Claim C1, counterexample.  On the NFC input "ἀι" the first cluster
carries a smooth breathing and the adjacent pair is intra-word, yet the
detector DOES record an occurrence for it — refuting the claim that such
a pair never yields a recorded occurrence. -/
theorem C1_counterexample :
    contains_breathing (clAt (nfc "ἀι".data) 0).text = true ∧
    ¬ (∀ occ ∈ (detect_hiatus_in_text "ἀι".data false 8).2,
        ¬(occ.i_index = 0 ∧ occ.j_index = 1)) := by decide

/-- Claim C1 (amended): an intra-word adjacent vowel pair whose first
cluster carries a smooth or rough breathing mark ALWAYS yields a recorded
occurrence: the breathing override sets the diphthong flag to False
(source line 175-176), so the scanner records the pair and stops. -/
theorem C1_breathing_always_records (t : List Char) (flag : Bool) (K i : Nat)
    (hK : 1 ≤ K) (hlen : i + 1 < (linedClusters (nfc t)).length)
    (hvi : is_vowel_cluster (clAt (nfc t) i).text = true)
    (hvj : is_vowel_cluster (clAt (nfc t) (i + 1)).text = true)
    (hbr : contains_breathing (clAt (nfc t) i).text = true) :
    ∃ occ ∈ (detect_hiatus_in_text t flag K).2,
      occ.i_index = i ∧ occ.j_index = i + 1 ∧ occ.kind = Kind.intraWord := by
  have hnd : isDiphthongAt flag (clAt (nfc t) i) (clAt (nfc t) (i + 1)) = false :=
    isDiphthongAt_of_breathing hbr
  have ho := adjacent_occ_of_not_diph hK hlen hvi hvj hnd
  refine ⟨expandOcc (linedClusters (nfc t))
      (mkOccurrence (nfc t) (linedClusters (nfc t)) i (i + 1) Kind.intraWord),
    detect_occ_mem.mpr ⟨_, ho, rfl⟩, ?_, ?_, ?_⟩
  · rw [expandOcc_i_index, mkOccurrence_i_index]
  · rw [expandOcc_j_index, mkOccurrence_j_index]
  · rw [expandOcc_kind, mkOccurrence_kind]

/-- Claim C1, witness for the amended theorem at the concrete input "ἀι". -/
theorem C1_witness :
    ∃ occ ∈ (detect_hiatus_in_text "ἀι".data false 8).2,
      occ.i_index = 0 ∧ occ.j_index = 0 + 1 ∧ occ.kind = Kind.intraWord :=
  C1_breathing_always_records "ἀι".data false 8 0 (by decide) (by decide)
    (by decide) (by decide) (by decide)

/-- Claim C2, counterexample.  The spec's example promises zero
occurrences on the single line "θεοῦ", but the detector's occurrence list
there is not empty (ε-ο is recorded as an intra-word hiatus). -/
theorem C2_counterexample :
    ¬ ((detect_hiatus_in_text "θεοῦ".data false 8).2 = []) := by decide

/-- Claim C2 (amended): on the single input line "θεοῦ" with the default
configuration the detector returns exactly one occurrence: an intra-word
hiatus between the ε (cluster 1) and the ο (cluster 2), whose right vowel
span expands over the ου diphthong to clusters [2, 3]. -/
theorem C2_one_intraword_occurrence :
    ((detect_hiatus_in_text "θεοῦ".data false 8).2.map
      (fun o => (o.kind, o.i_index, o.j_index, o.vowel_i_indices, o.vowel_j_indices))) =
    [(Kind.intraWord, 1, 2, [1], [2, 3])] := by decide

/-- Concrete cluster sequence (bases α, υ, ι) on which the span growth of
occurrence indices (0, 2) produces overlapping spans. -/
def csX : List Cluster :=
  [⟨['α'], 0, 1, 0⟩, ⟨['υ'], 1, 2, 0⟩, ⟨['ι'], 2, 3, 0⟩]

/-- Claim C3, counterexample.  On `csX` with i = 0, j = 2 the grown spans
are [0, 1] and [1, 2] (sharing index 1), and the source resolves the
conflict by clipping the LEFT span back to its boundary cluster [0] while
the RIGHT span keeps the shared index: the result is ([0], [1, 2]), not
the claimed ([0, 1], [2]). -/
theorem C3_counterexample :
    (expandVi csX 0 2 = [0, 1] ∧ expandVj csX 0 2 = [1, 2]) ∧
    (expandVi csX 0 2).any (fun k => (expandVj csX 0 2).contains k) = true ∧
    expand_vowel_spans csX 0 2 ≠ ([0, 1], [2]) ∧
    expand_vowel_spans csX 0 2 = ([0], [1, 2]) := by decide

/-- Claim C3 (amended): when the grown index sets would overlap, the
conflict is resolved by clipping the EARLIER (left) span back to its
boundary cluster only, while the later (right) span merely drops the
shared boundary index i and keeps its other grown indices; and for every
occurrence the final two index sets never overlap. -/
theorem C3_overlap_left_clip (cs : List Cluster) (i j : Nat) (t : List Char)
    (flag : Bool) (K : Nat) (occ : Occurrence)
    (hov : (expandVi cs i j).any (fun k => (expandVj cs i j).contains k) = true)
    (hocc : occ ∈ (detect_hiatus_in_text t flag K).2) :
    expand_vowel_spans cs i j = ([i], (expandVj cs i j).filter (fun k => k != i)) ∧
    ∀ k ∈ occ.vowel_i_indices, k ∉ occ.vowel_j_indices := by
  refine ⟨expand_spans_overlap hov, ?_⟩
  obtain ⟨o, ho, rfl⟩ := detect_occ_mem.mp hocc
  obtain ⟨hvi, hvj⟩ := expandOcc_spans _ o
  rw [hvi, hvj]
  exact expand_spans_disjoint _ _ _

/-- Claim C3, witness: the overlap branch fires on `csX` and the cluster
spans of the occurrence recorded on "εα" are disjoint. -/
theorem C3_witness :
    expand_vowel_spans csX 0 2 = ([0], (expandVj csX 0 2).filter (fun k => k != 0)) ∧
    ∀ k ∈ ((detect_hiatus_in_text "εα".data false 8).2.getD 0 default).vowel_i_indices,
      k ∉ ((detect_hiatus_in_text "εα".data false 8).2.getD 0 default).vowel_j_indices :=
  C3_overlap_left_clip csX 0 2 "εα".data false 8 _ (by decide) (by decide)

/-- Claim C4: each side's final vowel-span index set has at most two
cluster indices.  (The right span could only reach three via its leftward
growth, which would need a vowel-lettered cluster strictly between the
pair — impossible for a classified occurrence.) -/
theorem C4_spans_at_most_two (t : List Char) (flag : Bool) (K : Nat)
    (occ : Occurrence) (h : occ ∈ (detect_hiatus_in_text t flag K).2) :
    occ.vowel_i_indices.length ≤ 2 ∧ occ.vowel_j_indices.length ≤ 2 := by
  obtain ⟨o, ho, rfl⟩ := detect_occ_mem.mp h
  obtain ⟨hvi, hvj⟩ := expandOcc_spans (linedClusters (nfc t)) o
  rw [hvi, hvj]
  exact expand_spans_len (raw_c3_false ho)

/-- Claim C4, witness at the concrete input "εοῦ" (whose one occurrence
has spans [0] and [1, 2]). -/
theorem C4_witness :
    ((detect_hiatus_in_text "εοῦ".data false 8).2.getD 0 default).vowel_i_indices.length ≤ 2 ∧
    ((detect_hiatus_in_text "εοῦ".data false 8).2.getD 0 default).vowel_j_indices.length ≤ 2 :=
  C4_spans_at_most_two "εοῦ".data false 8 _ (by decide)

/-- Claim C5, counterexample.  On the NFC input "ἁι" the base-letter pair
αι is in the diphthong set and the second cluster carries no diaeresis,
yet an occurrence IS recorded (the rough breathing on the first cluster
forces the diphthong flag to False) — refuting the claim that a diaeresis
on cluster j is the only way such a pair is recorded. -/
theorem C5_counterexample :
    (base_letter (clAt (nfc "ἁι".data) 0).text ++
      base_letter (clAt (nfc "ἁι".data) 1).text) ∈ DIPHTHONGS ∧
    contains_combining_diaeresis (clAt (nfc "ἁι".data) 1).text = false ∧
    ¬ (∀ occ ∈ (detect_hiatus_in_text "ἁι".data false 8).2,
        ¬(occ.i_index = 0 ∧ occ.j_index = 1)) := by decide

/-- Claim C5 (amended): an intra-word adjacent vowel pair whose base
letters form a diphthong is recorded exactly when the second cluster
carries a diaeresis OR the first cluster carries a breathing mark; with
neither override the diphthong suppresses the occurrence. -/
theorem C5_diphthong_iff (t : List Char) (flag : Bool) (K i : Nat)
    (hK : 1 ≤ K) (hlen : i + 1 < (linedClusters (nfc t)).length)
    (hvi : is_vowel_cluster (clAt (nfc t) i).text = true)
    (hvj : is_vowel_cluster (clAt (nfc t) (i + 1)).text = true)
    (hpair : (base_letter (clAt (nfc t) i).text ++
      base_letter (clAt (nfc t) (i + 1)).text) ∈ DIPHTHONGS) :
    (∃ occ ∈ (detect_hiatus_in_text t flag K).2,
        occ.i_index = i ∧ occ.j_index = i + 1) ↔
      (contains_combining_diaeresis (clAt (nfc t) (i + 1)).text = true ∨
       contains_breathing (clAt (nfc t) i).text = true) := by
  constructor
  · rintro ⟨occ, hocc, hoi, _⟩
    obtain ⟨o, ho, rfl⟩ := detect_occ_mem.mp hocc
    rw [expandOcc_i_index] at hoi
    by_contra hcon
    push_neg at hcon
    obtain ⟨hd1, hd2⟩ := hcon
    have hdf : contains_combining_diaeresis (clAt (nfc t) (i + 1)).text = false :=
      Bool.eq_false_iff.mpr hd1
    have hbf : contains_breathing (clAt (nfc t) i).text = false :=
      Bool.eq_false_iff.mpr hd2
    have hdip : isDiphthongAt flag (clAt (nfc t) i) (clAt (nfc t) (i + 1)) = true :=
      isDiphthongAt_of_pair hpair hbf hdf
    exact adjacent_no_occ_of_diph hK hlen hvj hdip o ho hoi
  · intro hcase
    have hnd : isDiphthongAt flag (clAt (nfc t) i) (clAt (nfc t) (i + 1)) = false := by
      rcases hcase with hd | hb
      · exact isDiphthongAt_of_diaeresis hd
      · exact isDiphthongAt_of_breathing hb
    have ho := adjacent_occ_of_not_diph hK hlen hvi hvj hnd
    exact ⟨_, detect_occ_mem.mpr ⟨_, ho, rfl⟩,
      by rw [expandOcc_i_index, mkOccurrence_i_index],
      by rw [expandOcc_j_index, mkOccurrence_j_index]⟩

/-- Claim C5, witness for the amended theorem at the concrete input "αϊ"
(diphthong pair αι whose second cluster carries a diaeresis). -/
theorem C5_witness :
    (∃ occ ∈ (detect_hiatus_in_text "αϊ".data false 8).2,
        occ.i_index = 0 ∧ occ.j_index = 0 + 1) ↔
      (contains_combining_diaeresis (clAt (nfc "αϊ".data) (0 + 1)).text = true ∨
       contains_breathing (clAt (nfc "αϊ".data) 0).text = true) :=
  C5_diphthong_iff "αϊ".data false 8 0 (by decide) (by decide) (by decide)
    (by decide) (by decide)

/-- Claim C6: each starting vowel cluster index contributes at most one
occurrence to the result list. -/
theorem C6_at_most_one_per_start (t : List Char) (flag : Bool) (K i : Nat) :
    ((detect_hiatus_in_text t flag K).2.filter
      (fun o => o.i_index == i)).length ≤ 1 := by
  have heq : (detect_hiatus_in_text t flag K).2 =
      (rawOccurrences (nfc t) (linedClusters (nfc t)) flag K).map
        (expandOcc (linedClusters (nfc t))) := rfl
  rw [heq]
  apply pairwise_filter_count_le
  exact occs_pairwise.imp (fun h => h.1)

/-- Claim C7: every reported occurrence has i_index strictly below
j_index, and both are valid indices into the segmenter's cluster
sequence. -/
theorem C7_indices_valid (t : List Char) (flag : Bool) (K : Nat)
    (occ : Occurrence) (h : occ ∈ (detect_hiatus_in_text t flag K).2) :
    occ.i_index < occ.j_index ∧
    occ.i_index < (linedClusters (nfc t)).length ∧
    occ.j_index < (linedClusters (nfc t)).length := by
  obtain ⟨o, ho, rfl⟩ := detect_occ_mem.mp h
  have hc := raw_occ_core ho
  rw [expandOcc_i_index, expandOcc_j_index]
  exact ⟨hc.1, hc.2.2.2.1, hc.2.1⟩

/-- Claim C7, witness at the concrete input "εα". -/
theorem C7_witness :
    ((detect_hiatus_in_text "εα".data true 8).2.getD 0 default).i_index <
      ((detect_hiatus_in_text "εα".data true 8).2.getD 0 default).j_index ∧
    ((detect_hiatus_in_text "εα".data true 8).2.getD 0 default).i_index <
      (linedClusters (nfc "εα".data)).length ∧
    ((detect_hiatus_in_text "εα".data true 8).2.getD 0 default).j_index <
      (linedClusters (nfc "εα".data)).length :=
  C7_indices_valid "εα".data true 8 _ (by decide)

/-- Claim C8: with lookahead bound K ≥ 1, every reported occurrence has
j_index within K clusters of i_index; a vowel pair further apart is never
reported. -/
theorem C8_lookahead_bound (t : List Char) (flag : Bool) (K : Nat)
    (occ : Occurrence) (hK : 1 ≤ K)
    (h : occ ∈ (detect_hiatus_in_text t flag K).2) :
    occ.j_index - occ.i_index ≤ K ∧ occ.j_index ≤ occ.i_index + K := by
  obtain ⟨o, ho, rfl⟩ := detect_occ_mem.mp h
  have hc := raw_occ_core ho
  rw [expandOcc_i_index, expandOcc_j_index]
  omega

/-- Claim C8, witness at the concrete input "οα". -/
theorem C8_witness :
    ((detect_hiatus_in_text "οα".data false 8).2.getD 0 default).j_index -
      ((detect_hiatus_in_text "οα".data false 8).2.getD 0 default).i_index ≤ 8 ∧
    ((detect_hiatus_in_text "οα".data false 8).2.getD 0 default).j_index ≤
      ((detect_hiatus_in_text "οα".data false 8).2.getD 0 default).i_index + 8 :=
  C8_lookahead_bound "οα".data false 8 _ (by decide) (by decide)

/-- Claim C9: detection is invariant under prior NFC normalization — the
function normalizes its input to NFC before all processing, and NFC is
idempotent (taken as the hypothesis, at the given input). -/
theorem C9_nfc_invariant (t : List Char) (flag : Bool) (K : Nat)
    (h : nfc (nfc t) = nfc t) :
    detect_hiatus_in_text (nfc t) flag K = detect_hiatus_in_text t flag K := by
  unfold detect_hiatus_in_text
  rw [h]

/-- Claim C9, witness at the concrete input "θεοῦ". -/
theorem C9_witness :
    detect_hiatus_in_text (nfc "θεοῦ".data) false 8 =
      detect_hiatus_in_text "θεοῦ".data false 8 :=
  C9_nfc_invariant "θεοῦ".data false 8 (by decide)

/-- Claim C10: the occurrence list is sorted by strictly increasing
i_index and strictly increasing start_pos (one pass over start clusters
in order, at most one occurrence each). -/
theorem C10_sorted_by_start (t : List Char) (flag : Bool) (K : Nat) :
    ((detect_hiatus_in_text t flag K).2).Pairwise
      (fun a b => a.i_index < b.i_index ∧ a.start_pos < b.start_pos) := by
  have heq : (detect_hiatus_in_text t flag K).2 =
      (rawOccurrences (nfc t) (linedClusters (nfc t)) flag K).map
        (expandOcc (linedClusters (nfc t))) := rfl
  rw [heq]
  exact occs_pairwise
